import Mathlib

/-!
Shallow embedding of the letstalk repository.

Source files:
- `listen.py`: constants, `AudioRecorder.record_until_silence` (the silence-terminated
  capture loop) and `InteractiveRecorder` (the key-driven pause/resume state machine).
- `talk.py`: `MAX_CHARS` and the text-chunking while-loop inside `Speaker.speak`.

Byte strings of audio blocks are modelled as lists of integer samples (the code
reinterprets the raw bytes as an `array("h", data)` of signed 16-bit samples before
any use).  Text is modelled as `List Char`.
-/

namespace Letstalk

/-! ### Audio constants (listen.py, module level) -/

def CHUNK : Nat := 1024

def RATE : Nat := 16000

def SILENCE_THRESHOLD : Nat := 800

/-- `int(SILENCE_DURATION * RATE / CHUNK)` with `SILENCE_DURATION = 2.0`.
The float arithmetic `2.0 * 16000 / 1024 = 31.25` is exact, and `int` truncates
towards zero, which on nonnegative values is Nat floor division. -/
def silenceDurationBlocks : Nat := 2 * RATE / CHUNK

/-- One audio block: the signed 16-bit samples of one `stream.read(CHUNK)`. -/
abbrev Block := List Int

/-- `amplitude = max(abs(x) for x in int_data)`; 0 on the empty block
(real blocks carry `CHUNK = 1024` samples, where the fold equals Python's `max`). -/
def amplitude (b : Block) : Nat := (b.map Int.natAbs).foldl max 0

/-- `is_silent = amplitude < SILENCE_THRESHOLD` (listen.py line 76). -/
def isSilent (b : Block) : Bool := decide (amplitude b < SILENCE_THRESHOLD)

/-- The spec's SilenceDetector verdict. -/
inductive Classification
  | Silent
  | Speech
  deriving DecidableEq

/-- The spec's `SilenceDetector.classify`; in listen.py this is the inline
`is_silent` flag computed from the block's peak amplitude. -/
def classify (b : Block) : Classification :=
  if isSilent b then .Silent else .Speech

/-- One attempted `stream.read`: a block, or a raised exception
(the `except` branch of the loop). -/
inductive ReadResult
  | ok (b : Block)
  | err
  deriving DecidableEq

/-- The stop condition of `record_until_silence`, checked after every block:
`(has_speech and silent_chunks > int(SILENCE_DURATION * RATE / CHUNK)) or
 total_chunks >= max_chunks`.
`maxChunks = none` models `max_duration=None`, i.e. `max_chunks = float("inf")`,
which no finite `total_chunks` ever reaches. -/
def stopCheck (hasSpeech : Bool) (silentChunks totalChunks : Nat)
    (maxChunks : Option Nat) : Bool :=
  (hasSpeech && decide (silentChunks > silenceDurationBlocks)) ||
    (match maxChunks with
     | none => false
     | some m => decide (totalChunks ≥ m))

/-- The body of the `while True` loop of `record_until_silence`, over a finite
stream of read results.  State: accumulated `frames`, `silent_chunks`,
`has_speech`, `total_chunks`.  A read error (`ReadResult.err`) breaks the loop
and the accumulated frames are returned; running off the end of the finite
input stream also returns the accumulated frames. -/
def recordUntilSilenceAux :
    List ReadResult → List Block → Nat → Bool → Nat → Option Nat → List Block
  | [], frames, _, _, _, _ => frames
  | .err :: _, frames, _, _, _, _ => frames
  | .ok b :: rest, frames, silentChunks, hasSpeech, totalChunks, maxChunks =>
    let frames' := frames ++ [b]
    let totalChunks' := totalChunks + 1
    let silentChunks' := if isSilent b then silentChunks + 1 else 0
    let hasSpeech' := if isSilent b then hasSpeech else true
    if stopCheck hasSpeech' silentChunks' totalChunks' maxChunks then frames'
    else recordUntilSilenceAux rest frames' silentChunks' hasSpeech' totalChunks' maxChunks

/-- `AudioRecorder.record_until_silence` (listen.py lines 49-102), as a function
of the stream of reads it performs.  Initial state: `frames = []`,
`silent_chunks = 0`, `has_speech = False`, `total_chunks = 0`. -/
def record_until_silence (input : List ReadResult) (maxChunks : Option Nat) : List Block :=
  recordUntilSilenceAux input [] 0 false 0 maxChunks

/-! ### InteractiveRecorder (listen.py) -/

/-- `InteractiveRecorder` states (READY / RECORDING / PAUSED / STOPPED). -/
inductive RecState
  | READY
  | RECORDING
  | PAUSED
  | STOPPED
  deriving DecidableEq

/-- The effect of one keypress in `_listen_for_keys` (listen.py lines 151-162):
`"\n"` or `"\r"` toggles READY→RECORDING, RECORDING→PAUSED, PAUSED→RECORDING
(no branch for STOPPED: the state is left unchanged); `"q"` sets STOPPED from
any state; any other character leaves the state unchanged. -/
def keyTransition (s : RecState) (ch : Char) : RecState :=
  if ch = '\n' ∨ ch = '\r' then
    match s with
    | .READY => .RECORDING
    | .RECORDING => .PAUSED
    | .PAUSED => .RECORDING
    | .STOPPED => .STOPPED
  else if ch = 'q' then .STOPPED
  else s

/-- Joint state of the two activities of `InteractiveRecorder`: the shared
`self.state`, the retained `frames` of `record()`, and whether each loop has
already exited (`audioDone`: the audio loop broke out; `keyDone`: the
key-listener loop broke out). -/
structure IState where
  st : RecState
  frames : List Block
  audioDone : Bool
  keyDone : Bool
  deriving DecidableEq

/-- One event of an interleaved execution of the two activities:
a keypress read by `_listen_for_keys`, a successful block read by the audio
loop of `record()`, or an audio read error. -/
inductive Event
  | key (c : Char)
  | audio (b : Block)
  | audioErr
  deriving DecidableEq

/-- One event step.  A keypress is handled by `_listen_for_keys` unless that
loop already exited; after handling, the listener breaks when it observes
STOPPED.  An audio block is handled by the loop of `record()` unless it
already exited: on STOPPED the loop breaks; while RECORDING the block is
appended; while PAUSED it is read and discarded.  While READY the audio loop
has not started (it is still busy-waiting before opening the stream), so a
block event changes nothing.  An audio read error breaks the audio loop. -/
def stepEvent (s : IState) (e : Event) : IState :=
  match e with
  | .key c =>
    if s.keyDone then s
    else
      let st' := keyTransition s.st c
      { s with st := st', keyDone := decide (st' = .STOPPED) }
  | .audio b =>
    if s.audioDone then s
    else
      match s.st with
      | .STOPPED => { s with audioDone := true }
      | .RECORDING => { s with frames := s.frames ++ [b] }
      | .PAUSED => s
      | .READY => s
  | .audioErr =>
    if s.audioDone then s else { s with audioDone := true }

/-- Initial joint state: `self.state = READY`, no frames, both loops running. -/
def initIState : IState := ⟨.READY, [], false, false⟩

/-- Run `InteractiveRecorder` on an interleaved event trace from the initial state. -/
def runTrace (events : List Event) : IState := events.foldl stepEvent initIState

/-! ### Text chunking (talk.py, Speaker.speak) -/

def MAX_CHARS : Nat := 4096

/-- The whitespace characters stripped by Python's `str.lstrip()`,
restricted to ASCII. -/
def isStripSpace (c : Char) : Bool :=
  c = ' ' ∨ c = '\t' ∨ c = '\n' ∨ c = '\r' ∨ c = '\x0B' ∨ c = '\x0C'

/-- Python `str.rfind` for a single-character needle: the index of the last
occurrence, `none` when absent (Python returns -1). -/
def rfindIdx : List Char → Char → Option Nat
  | [], _ => none
  | a :: l, c =>
    match rfindIdx l c with
    | some i => some (i + 1)
    | none => if a = c then some 0 else none

/-- The split-point cascade of `Speaker.speak` (talk.py lines 39-49) on the
window `text[:MAX_CHARS]`: try `rfind` for `"."`, `"!"`, `"?"`, `"\n"`, `" "`
in that order; if all fail, force `MAX_CHARS - 1`. -/
def splitPoint (w : List Char) : Nat :=
  match rfindIdx w '.' with
  | some i => i
  | none =>
    match rfindIdx w '!' with
    | some i => i
    | none =>
      match rfindIdx w '?' with
      | some i => i
      | none =>
        match rfindIdx w '\n' with
        | some i => i
        | none =>
          match rfindIdx w ' ' with
          | some i => i
          | none => MAX_CHARS - 1

/-- `chunks.append(text[:split_point + 1])` (talk.py line 53). -/
def nextChunk (text : List Char) : List Char :=
  text.take (splitPoint (text.take MAX_CHARS) + 1)

/-- The whitespace that `lstrip()` removes from `text[split_point + 1:]`. -/
def strippedWs (text : List Char) : List Char :=
  (text.drop (splitPoint (text.take MAX_CHARS) + 1)).takeWhile isStripSpace

/-- `text = text[split_point + 1:].lstrip()` (talk.py line 54). -/
def nextRest (text : List Char) : List Char :=
  (text.drop (splitPoint (text.take MAX_CHARS) + 1)).dropWhile isStripSpace

theorem length_dropWhile_le (p : Char → Bool) (l : List Char) :
    (l.dropWhile p).length ≤ l.length := by
  induction l with
  | nil => simp
  | cons a l ih =>
    by_cases h : p a
    · rw [List.dropWhile_cons_of_pos h]
      exact Nat.le_succ_of_le ih
    · rw [List.dropWhile_cons_of_neg h]

theorem nextRest_length_lt (text : List Char) (h : text.length ≠ 0) :
    (nextRest text).length < text.length := by
  have h1 := length_dropWhile_le isStripSpace
    (text.drop (splitPoint (text.take MAX_CHARS) + 1))
  rw [List.length_drop] at h1
  unfold nextRest
  omega

/-- The chunking `while text:` loop of `Speaker.speak` (talk.py lines 33-54):
if the remainder fits in `MAX_CHARS` it is the final chunk; otherwise emit
`text[:split_point + 1]` and continue on `text[split_point + 1:].lstrip()`. -/
def chunkText (text : List Char) : List (List Char) :=
  if text.length = 0 then []
  else if text.length ≤ MAX_CHARS then [text]
  else nextChunk text :: chunkText (nextRest text)
termination_by text.length
decreasing_by exact nextRest_length_lt text (by omega)

/-- The whitespace runs removed by `lstrip()` at each split of the same loop,
in order; mirrors the recursion of `chunkText`. -/
def chunkWs (text : List Char) : List (List Char) :=
  if text.length = 0 then []
  else if text.length ≤ MAX_CHARS then []
  else strippedWs text :: chunkWs (nextRest text)
termination_by text.length
decreasing_by exact nextRest_length_lt text (by omega)

/-- Interleave chunks with the whitespace runs removed between them:
`c₁ ++ w₁ ++ c₂ ++ w₂ ++ ⋯ ++ cₙ`. -/
def interleaveJoin : List (List Char) → List (List Char) → List Char
  | [], _ => []
  | c :: cs, [] => c ++ interleaveJoin cs []
  | c :: cs, w :: ws => c ++ (w ++ interleaveJoin cs ws)

/-- `i` is the index of the last occurrence of `c` in `w`. -/
def isLastOcc (w : List Char) (c : Char) (i : Nat) : Prop :=
  w[i]? = some c ∧ ∀ j, i < j → w[j]? ≠ some c

/-! ### Lemmas about rfindIdx and splitPoint -/

theorem rfindIdx_cons (a : Char) (l : List Char) (c : Char) :
    rfindIdx (a :: l) c =
      match rfindIdx l c with
      | some i => some (i + 1)
      | none => if a = c then some 0 else none := rfl

theorem rfindIdx_eq_none_iff (l : List Char) (c : Char) :
    rfindIdx l c = none ↔ c ∉ l := by
  induction l with
  | nil => simp [rfindIdx]
  | cons a l ih =>
    rw [rfindIdx_cons]
    cases h : rfindIdx l c with
    | some i =>
      have hmem : c ∈ l := by
        by_contra hc
        have := ih.mpr hc
        rw [h] at this
        cases this
      simp [List.mem_cons, hmem]
    | none =>
      have hout : c ∉ l := ih.mp h
      by_cases ha : a = c
      · rw [if_pos ha]
        subst ha
        simp [List.mem_cons]
      · rw [if_neg ha]
        simp only [List.mem_cons, true_iff]
        intro hmem
        rcases hmem with hca | hcl
        · exact ha hca.symm
        · exact hout hcl

theorem rfindIdx_getElem (l : List Char) (c : Char) (i : Nat)
    (h : rfindIdx l c = some i) : l[i]? = some c := by
  induction l generalizing i with
  | nil => simp [rfindIdx] at h
  | cons a l ih =>
    rw [rfindIdx_cons] at h
    cases hr : rfindIdx l c with
    | some j =>
      rw [hr] at h
      simp only [Option.some.injEq] at h
      subst h
      simpa using ih j hr
    | none =>
      rw [hr] at h
      by_cases ha : a = c
      · rw [if_pos ha] at h
        injection h with h'
        subst h'
        simp [ha]
      · rw [if_neg ha] at h
        cases h

theorem rfindIdx_last (l : List Char) (c : Char) (i : Nat)
    (h : rfindIdx l c = some i) : ∀ j, i < j → l[j]? ≠ some c := by
  induction l generalizing i with
  | nil => simp [rfindIdx] at h
  | cons a l ih =>
    rw [rfindIdx_cons] at h
    intro j hij
    cases hr : rfindIdx l c with
    | some k =>
      rw [hr] at h
      simp only [Option.some.injEq] at h
      subst h
      obtain ⟨j', rfl⟩ : ∃ j', j = j' + 1 := ⟨j - 1, by omega⟩
      simpa using ih k hr j' (by omega)
    | none =>
      rw [hr] at h
      have hout : c ∉ l := (rfindIdx_eq_none_iff l c).mp hr
      by_cases ha : a = c
      · rw [if_pos ha] at h
        injection h with h'
        subst h'
        obtain ⟨j', rfl⟩ : ∃ j', j = j' + 1 := ⟨j - 1, by omega⟩
        simp only [List.getElem?_cons_succ]
        intro hget
        exact hout (List.mem_iff_getElem?.mpr ⟨j', hget⟩)
      · rw [if_neg ha] at h
        cases h

theorem rfindIdx_isLastOcc (l : List Char) (c : Char) (i : Nat)
    (h : rfindIdx l c = some i) : isLastOcc l c i :=
  ⟨rfindIdx_getElem l c i h, rfindIdx_last l c i h⟩

theorem rfindIdx_lt_length (l : List Char) (c : Char) (i : Nat)
    (h : rfindIdx l c = some i) : i < l.length := by
  have := rfindIdx_getElem l c i h
  exact (List.getElem?_eq_some.mp this).1

theorem rfindIdx_of_mem (l : List Char) (c : Char) (h : c ∈ l) :
    ∃ i, rfindIdx l c = some i := by
  cases hr : rfindIdx l c with
  | some i => exact ⟨i, rfl⟩
  | none => exact absurd ((rfindIdx_eq_none_iff l c).mp hr) (by simp [h])

theorem rfindIdx_append (l1 l2 : List Char) (c : Char) :
    rfindIdx (l1 ++ l2) c =
      match rfindIdx l2 c with
      | some i => some (l1.length + i)
      | none => rfindIdx l1 c := by
  induction l1 with
  | nil =>
    simp only [List.nil_append]
    cases h2 : rfindIdx l2 c with
    | some i =>
      show some i = some (0 + i)
      rw [Nat.zero_add]
    | none =>
      show (none : Option Nat) = rfindIdx [] c
      rfl
  | cons a l1 ih =>
    rw [List.cons_append, rfindIdx_cons, ih, rfindIdx_cons a l1 c]
    cases h2 : rfindIdx l2 c with
    | some i =>
      show some (l1.length + i + 1) = some ((a :: l1).length + i)
      rw [List.length_cons]
      congr 1
      omega
    | none => rfl

theorem splitPoint_lt (w : List Char) (hw : w.length ≤ MAX_CHARS) :
    splitPoint w < MAX_CHARS := by
  unfold splitPoint
  cases h1 : rfindIdx w '.' with
  | some i => exact lt_of_lt_of_le (rfindIdx_lt_length w '.' i h1) hw
  | none =>
  cases h2 : rfindIdx w '!' with
  | some i => exact lt_of_lt_of_le (rfindIdx_lt_length w '!' i h2) hw
  | none =>
  cases h3 : rfindIdx w '?' with
  | some i => exact lt_of_lt_of_le (rfindIdx_lt_length w '?' i h3) hw
  | none =>
  cases h4 : rfindIdx w '\n' with
  | some i => exact lt_of_lt_of_le (rfindIdx_lt_length w '\n' i h4) hw
  | none =>
  cases h5 : rfindIdx w ' ' with
  | some i => exact lt_of_lt_of_le (rfindIdx_lt_length w ' ' i h5) hw
  | none =>
    show MAX_CHARS - 1 < MAX_CHARS
    norm_num [MAX_CHARS]

/-! ### Unfolding lemmas for chunkText / chunkWs -/

theorem chunkText_nil (text : List Char) (h : text.length = 0) :
    chunkText text = [] := by
  unfold chunkText
  rw [if_pos h]

theorem chunkText_small (text : List Char) (h0 : text.length ≠ 0)
    (h1 : text.length ≤ MAX_CHARS) : chunkText text = [text] := by
  unfold chunkText
  rw [if_neg h0, if_pos h1]

theorem chunkText_step (text : List Char) (h : MAX_CHARS < text.length) :
    chunkText text = nextChunk text :: chunkText (nextRest text) := by
  conv_lhs => unfold chunkText
  rw [if_neg (by omega), if_neg (by omega)]

theorem chunkWs_nil (text : List Char) (h : text.length = 0) :
    chunkWs text = [] := by
  unfold chunkWs
  rw [if_pos h]

theorem chunkWs_small (text : List Char) (h0 : text.length ≠ 0)
    (h1 : text.length ≤ MAX_CHARS) : chunkWs text = [] := by
  unfold chunkWs
  rw [if_neg h0, if_pos h1]

theorem chunkWs_step (text : List Char) (h : MAX_CHARS < text.length) :
    chunkWs text = strippedWs text :: chunkWs (nextRest text) := by
  conv_lhs => unfold chunkWs
  rw [if_neg (by omega), if_neg (by omega)]

/-! ### Structural properties of the chunking loop -/

theorem chunk_join (text : List Char) :
    interleaveJoin (chunkText text) (chunkWs text) = text := by
  by_cases h0 : text.length = 0
  · rw [chunkText_nil text h0, chunkWs_nil text h0]
    exact (List.length_eq_zero.mp h0).symm
  · by_cases h1 : text.length ≤ MAX_CHARS
    · rw [chunkText_small text h0 h1, chunkWs_small text h0 h1]
      show text ++ interleaveJoin [] [] = text
      simp [interleaveJoin]
    · rw [chunkText_step text (by omega), chunkWs_step text (by omega)]
      show nextChunk text ++ (strippedWs text ++
        interleaveJoin (chunkText (nextRest text)) (chunkWs (nextRest text))) = text
      rw [chunk_join (nextRest text)]
      unfold nextChunk strippedWs nextRest
      rw [List.takeWhile_append_dropWhile]
      exact List.take_append_drop _ text
termination_by text.length
decreasing_by exact nextRest_length_lt text (by omega)

theorem chunk_length_le (text : List Char) :
    ∀ ch ∈ chunkText text, ch.length ≤ MAX_CHARS := by
  by_cases h0 : text.length = 0
  · rw [chunkText_nil text h0]
    intro ch hch
    cases hch
  · by_cases h1 : text.length ≤ MAX_CHARS
    · rw [chunkText_small text h0 h1]
      intro ch hch
      rw [List.mem_singleton.mp hch]
      exact h1
    · rw [chunkText_step text (by omega)]
      intro ch hch
      rcases List.mem_cons.mp hch with hch | hch
      · subst hch
        unfold nextChunk
        rw [List.length_take]
        have hsp : splitPoint (text.take MAX_CHARS) < MAX_CHARS :=
          splitPoint_lt _ (by rw [List.length_take]; omega)
        omega
      · exact chunk_length_le (nextRest text) ch hch
termination_by text.length
decreasing_by exact nextRest_length_lt text (by omega)

theorem mem_takeWhile_sat (p : Char → Bool) (l : List Char) :
    ∀ c ∈ l.takeWhile p, p c = true := by
  induction l with
  | nil => simp
  | cons a l ih =>
    by_cases h : p a
    · rw [List.takeWhile_cons_of_pos h]
      intro c hc
      rcases List.mem_cons.mp hc with hc | hc
      · rw [hc]; exact h
      · exact ih c hc
    · rw [List.takeWhile_cons_of_neg h]
      intro c hc
      cases hc

theorem chunkWs_white (text : List Char) :
    ∀ w ∈ chunkWs text, ∀ c ∈ w, isStripSpace c = true := by
  by_cases h0 : text.length = 0
  · rw [chunkWs_nil text h0]
    intro w hw
    cases hw
  · by_cases h1 : text.length ≤ MAX_CHARS
    · rw [chunkWs_small text h0 h1]
      intro w hw
      cases hw
    · rw [chunkWs_step text (by omega)]
      intro w hw
      rcases List.mem_cons.mp hw with hw | hw
      · subst hw
        exact mem_takeWhile_sat isStripSpace _
      · exact chunkWs_white (nextRest text) w hw
termination_by text.length
decreasing_by exact nextRest_length_lt text (by omega)

theorem chunk_isInfix (text : List Char) :
    ∀ ch ∈ chunkText text, ch <:+: text := by
  by_cases h0 : text.length = 0
  · rw [chunkText_nil text h0]
    intro ch hch
    cases hch
  · by_cases h1 : text.length ≤ MAX_CHARS
    · rw [chunkText_small text h0 h1]
      intro ch hch
      rw [List.mem_singleton.mp hch]
    · rw [chunkText_step text (by omega)]
      intro ch hch
      rcases List.mem_cons.mp hch with hch | hch
      · subst hch
        exact (List.take_prefix _ text).isInfix
      · have h2 : ch <:+: nextRest text := chunk_isInfix (nextRest text) ch hch
        have h3 : nextRest text <:+ text := by
          unfold nextRest
          exact (List.dropWhile_suffix isStripSpace).trans (List.drop_suffix _ text)
        exact h2.trans h3.isInfix
termination_by text.length
decreasing_by exact nextRest_length_lt text (by omega)

theorem chunk_ne_nil (text : List Char) :
    ∀ ch ∈ chunkText text, ch ≠ [] := by
  by_cases h0 : text.length = 0
  · rw [chunkText_nil text h0]
    intro ch hch
    cases hch
  · by_cases h1 : text.length ≤ MAX_CHARS
    · rw [chunkText_small text h0 h1]
      intro ch hch
      rw [List.mem_singleton.mp hch]
      intro hnil
      rw [hnil] at h0
      exact h0 rfl
    · rw [chunkText_step text (by omega)]
      intro ch hch
      rcases List.mem_cons.mp hch with hch | hch
      · subst hch
        unfold nextChunk
        intro hnil
        have := congrArg List.length hnil
        rw [List.length_take] at this
        simp only [List.length_nil] at this
        omega
      · exact chunk_ne_nil (nextRest text) ch hch
termination_by text.length
decreasing_by exact nextRest_length_lt text (by omega)

theorem chunk_head_not_space (text : List Char)
    (htext : ∀ c, text.head? = some c → isStripSpace c = false) :
    ∀ ch ∈ chunkText text, ∃ c tl, ch = c :: tl ∧ isStripSpace c = false := by
  by_cases h0 : text.length = 0
  · rw [chunkText_nil text h0]
    intro ch hch
    cases hch
  · by_cases h1 : text.length ≤ MAX_CHARS
    · rw [chunkText_small text h0 h1]
      intro ch hch
      rw [List.mem_singleton.mp hch]
      cases text with
      | nil => exact absurd rfl h0
      | cons a tl => exact ⟨a, tl, rfl, htext a rfl⟩
    · rw [chunkText_step text (by omega)]
      intro ch hch
      rcases List.mem_cons.mp hch with hch | hch
      · subst hch
        cases htx : text with
        | nil =>
          rw [htx] at h0
          exact absurd rfl h0
        | cons a tl =>
          refine ⟨a, (tl.take (splitPoint (text.take MAX_CHARS))), ?_, ?_⟩
          · unfold nextChunk
            rw [htx]
            rfl
          · exact htext a (by rw [htx]; rfl)
      · refine chunk_head_not_space (nextRest text) ?_ ch hch
        intro c hc
        unfold nextRest at hc
        have := List.head?_dropWhile_not isStripSpace
          (text.drop (splitPoint (text.take MAX_CHARS) + 1))
        rw [hc] at this
        simpa using this
termination_by text.length
decreasing_by exact nextRest_length_lt text (by omega)

/-! ### Lemmas about the silence-terminated recording loop -/

theorem recordAux_ok_eq (b : Block) (rest : List ReadResult) (frames : List Block)
    (sc : Nat) (hs : Bool) (t : Nat) (mc : Option Nat) :
    recordUntilSilenceAux (.ok b :: rest) frames sc hs t mc =
      if stopCheck (if isSilent b then hs else true) (if isSilent b then sc + 1 else 0)
        (t + 1) mc
      then frames ++ [b]
      else recordUntilSilenceAux rest (frames ++ [b]) (if isSilent b then sc + 1 else 0)
        (if isSilent b then hs else true) (t + 1) mc := rfl

theorem recordAux_ok_silent (b : Block) (hb : isSilent b = true) (rest : List ReadResult)
    (frames : List Block) (sc : Nat) (hs : Bool) (t : Nat) (mc : Option Nat) :
    recordUntilSilenceAux (.ok b :: rest) frames sc hs t mc =
      if stopCheck hs (sc + 1) (t + 1) mc
      then frames ++ [b]
      else recordUntilSilenceAux rest (frames ++ [b]) (sc + 1) hs (t + 1) mc := by
  rw [recordAux_ok_eq, hb]
  rfl

theorem recordAux_ok_speech (b : Block) (hb : isSilent b = false) (rest : List ReadResult)
    (frames : List Block) (sc : Nat) (hs : Bool) (t : Nat) (mc : Option Nat) :
    recordUntilSilenceAux (.ok b :: rest) frames sc hs t mc =
      if stopCheck true 0 (t + 1) mc
      then frames ++ [b]
      else recordUntilSilenceAux rest (frames ++ [b]) 0 true (t + 1) mc := by
  rw [recordAux_ok_eq, hb]
  rfl

theorem stopCheck_eq_false (hs : Bool) (sc t : Nat) (mc : Option Nat)
    (h1 : hs = false ∨ sc ≤ silenceDurationBlocks)
    (h2 : ∀ m, mc = some m → t < m) :
    stopCheck hs sc t mc = false := by
  unfold stopCheck
  have hfirst : (hs && decide (sc > silenceDurationBlocks)) = false := by
    rcases h1 with h | h
    · rw [h]
      rfl
    · have hn : ¬(silenceDurationBlocks < sc) := by omega
      simp [hn]
  rw [hfirst]
  cases mc with
  | none => rfl
  | some m =>
    have hm := h2 m rfl
    have hn : ¬(t ≥ m) := by omega
    simp [hn]

theorem stopCheck_silence (sc t : Nat) (mc : Option Nat)
    (h : silenceDurationBlocks < sc) : stopCheck true sc t mc = true := by
  unfold stopCheck
  simp [h]

theorem recordAux_frames_grow (input : List ReadResult) :
    ∀ (frames : List Block) (sc : Nat) (hs : Bool) (t : Nat) (mc : Option Nat),
      frames <+: recordUntilSilenceAux input frames sc hs t mc := by
  induction input with
  | nil =>
    intro frames _ _ _ _
    exact List.prefix_rfl
  | cons r rest ih =>
    intro frames sc hs t mc
    cases r with
    | err => exact List.prefix_rfl
    | ok b =>
      cases hsil : isSilent b with
      | true =>
        rw [recordAux_ok_silent b hsil]
        split
        · exact ⟨[b], rfl⟩
        · exact (List.prefix_append frames [b]).trans (ih (frames ++ [b]) _ _ _ mc)
      | false =>
        rw [recordAux_ok_speech b hsil]
        split
        · exact ⟨[b], rfl⟩
        · exact (List.prefix_append frames [b]).trans (ih (frames ++ [b]) _ _ _ mc)

theorem recordAux_silent_phase (ns : List Block) (rest : List ReadResult)
    (frames : List Block) (sc t : Nat) (mc : Option Nat)
    (hns : ∀ b ∈ ns, isSilent b = true)
    (hcap : ∀ m, mc = some m → t + ns.length < m) :
    recordUntilSilenceAux (ns.map ReadResult.ok ++ rest) frames sc false t mc =
      recordUntilSilenceAux rest (frames ++ ns) (sc + ns.length) false (t + ns.length) mc := by
  induction ns generalizing frames sc t with
  | nil => simp
  | cons b ns ih =>
    have hb : isSilent b = true := hns b (List.mem_cons_self b ns)
    rw [List.map_cons, List.cons_append, recordAux_ok_silent b hb]
    rw [stopCheck_eq_false false (sc + 1) (t + 1) mc (Or.inl rfl)
      (fun m hm => by have := hcap m hm; rw [List.length_cons] at this; omega)]
    rw [if_neg (by simp)]
    have e1 : frames ++ b :: ns = (frames ++ [b]) ++ ns := by
      rw [List.append_assoc]
      rfl
    have e2 : sc + (b :: ns).length = (sc + 1) + ns.length := by
      rw [List.length_cons]
      omega
    have e3 : t + (b :: ns).length = (t + 1) + ns.length := by
      rw [List.length_cons]
      omega
    rw [e1, e2, e3]
    exact ih (frames ++ [b]) (sc + 1) (t + 1)
      (fun x hx => hns x (List.mem_cons_of_mem b hx))
      (fun m hm => by have := hcap m hm; rw [List.length_cons] at this; omega)

theorem recordAux_speech_phase (ms : List Block) (rest : List ReadResult)
    (frames : List Block) (sc t : Nat) (hs : Bool) (mc : Option Nat)
    (hms : ∀ b ∈ ms, isSilent b = false)
    (hcap : ∀ m, mc = some m → t + ms.length < m) :
    recordUntilSilenceAux (ms.map ReadResult.ok ++ rest) frames sc hs t mc =
      recordUntilSilenceAux rest (frames ++ ms)
        (if ms.isEmpty then sc else 0) (hs || !ms.isEmpty) (t + ms.length) mc := by
  induction ms generalizing frames sc t hs with
  | nil => simp
  | cons b ms ih =>
    have hb : isSilent b = false := hms b (List.mem_cons_self b ms)
    rw [List.map_cons, List.cons_append, recordAux_ok_speech b hb]
    rw [stopCheck_eq_false true 0 (t + 1) mc (Or.inr (Nat.zero_le _))
      (fun m hm => by have := hcap m hm; rw [List.length_cons] at this; omega)]
    rw [if_neg (by simp)]
    have e1 : frames ++ b :: ms = (frames ++ [b]) ++ ms := by
      rw [List.append_assoc]
      rfl
    have e3 : t + (b :: ms).length = (t + 1) + ms.length := by
      rw [List.length_cons]
      omega
    rw [e1, e3]
    rw [ih (frames ++ [b]) 0 (t + 1) true
      (fun x hx => hms x (List.mem_cons_of_mem b hx))
      (fun m hm => by have := hcap m hm; rw [List.length_cons] at this; omega)]
    simp

theorem recordAux_trailing_silence (ks : List Block) (rest : List ReadResult) :
    ∀ (frames : List Block) (sc t : Nat) (mc : Option Nat),
    (∀ b ∈ ks, isSilent b = true) →
    sc ≤ silenceDurationBlocks →
    silenceDurationBlocks + 1 ≤ sc + ks.length →
    (∀ m, mc = some m → t + (silenceDurationBlocks + 1 - sc) ≤ m) →
    recordUntilSilenceAux (ks.map ReadResult.ok ++ rest) frames sc true t mc =
      frames ++ ks.take (silenceDurationBlocks + 1 - sc) := by
  induction ks with
  | nil =>
    intro frames sc t mc _ hsc hlen _
    rw [List.length_nil] at hlen
    omega
  | cons b ks ih =>
    intro frames sc t mc hks hsc hlen hcap
    have hb : isSilent b = true := hks b (List.mem_cons_self b ks)
    rw [List.map_cons, List.cons_append, recordAux_ok_silent b hb]
    by_cases hstop : silenceDurationBlocks < sc + 1
    · rw [stopCheck_silence (sc + 1) (t + 1) mc hstop, if_pos rfl]
      have h1 : silenceDurationBlocks + 1 - sc = 1 := by omega
      rw [h1]
      rfl
    · rw [stopCheck_eq_false true (sc + 1) (t + 1) mc (Or.inr (by omega))
        (fun m hm => by have := hcap m hm; omega)]
      rw [if_neg (by simp)]
      rw [List.length_cons] at hlen
      rw [ih (frames ++ [b]) (sc + 1) (t + 1) mc
        (fun x hx => hks x (List.mem_cons_of_mem b hx))
        (by omega) (by omega)
        (fun m hm => by have := hcap m hm; omega)]
      have h2 : silenceDurationBlocks + 1 - sc = (silenceDurationBlocks + 1 - (sc + 1)) + 1 := by
        omega
      rw [h2, List.take_succ_cons, List.append_assoc]
      rfl

/-! ### Lemmas about the interactive recorder -/

theorem keyTransition_stopped (c : Char) : keyTransition .STOPPED c = .STOPPED := by
  unfold keyTransition
  by_cases h1 : c = '\n' ∨ c = '\r'
  · rw [if_pos h1]
  · rw [if_neg h1]
    by_cases h2 : c = 'q'
    · rw [if_pos h2]
    · rw [if_neg h2]

theorem stepEvent_key_eq (s : IState) (c : Char) :
    stepEvent s (.key c) =
      if s.keyDone then s
      else { s with st := keyTransition s.st c,
                    keyDone := decide (keyTransition s.st c = .STOPPED) } := rfl

theorem stepEvent_audio_eq (s : IState) (b : Block) :
    stepEvent s (.audio b) =
      if s.audioDone then s
      else
        match s.st with
        | .STOPPED => { s with audioDone := true }
        | .RECORDING => { s with frames := s.frames ++ [b] }
        | .PAUSED => s
        | .READY => s := rfl

theorem stepEvent_audioErr_eq (s : IState) :
    stepEvent s .audioErr =
      if s.audioDone then s else { s with audioDone := true } := rfl

theorem stepEvent_stopped (s : IState) (e : Event) (h : s.st = .STOPPED) :
    (stepEvent s e).st = .STOPPED ∧ (stepEvent s e).frames = s.frames := by
  cases e with
  | key c =>
    rw [stepEvent_key_eq]
    by_cases hk : s.keyDone = true
    · rw [if_pos hk]
      exact ⟨h, rfl⟩
    · rw [if_neg hk]
      refine ⟨?_, rfl⟩
      show keyTransition s.st c = .STOPPED
      rw [h, keyTransition_stopped]
  | audio b =>
    rw [stepEvent_audio_eq]
    by_cases ha : s.audioDone = true
    · rw [if_pos ha]
      exact ⟨h, rfl⟩
    · rw [if_neg ha, h]
      exact ⟨rfl, rfl⟩
  | audioErr =>
    rw [stepEvent_audioErr_eq]
    by_cases ha : s.audioDone = true
    · rw [if_pos ha]
      exact ⟨h, rfl⟩
    · rw [if_neg ha]
      exact ⟨h, rfl⟩

theorem stopped_absorbs (events : List Event) : ∀ (s : IState), s.st = .STOPPED →
    (events.foldl stepEvent s).st = .STOPPED ∧
      (events.foldl stepEvent s).frames = s.frames := by
  induction events with
  | nil =>
    intro s h
    exact ⟨h, rfl⟩
  | cons e events ih =>
    intro s h
    rw [List.foldl_cons]
    obtain ⟨h1, h2⟩ := stepEvent_stopped s e h
    obtain ⟨h3, h4⟩ := ih (stepEvent s e) h1
    exact ⟨h3, h4.trans h2⟩

/-! ### The claims -/

/-- Claim C1: for a synthetic input [N silent][M speech][K silent] with M ≥ 1,
K > silenceDurationBlocks, and the maximum-duration cap (if any) not reached,
`record_until_silence` returns exactly N + M + silenceDurationBlocks + 1
blocks: the strictly-greater-than comparison fires the stop one block after
the threshold count is reached, not at it. -/
theorem claim_C1 (ns ms ks : List Block) (mc : Option Nat)
    (hns : ∀ b ∈ ns, isSilent b = true)
    (hms : ∀ b ∈ ms, isSilent b = false)
    (hmne : ms ≠ [])
    (hks : ∀ b ∈ ks, isSilent b = true)
    (hklen : silenceDurationBlocks < ks.length)
    (hcap : ∀ m, mc = some m →
      ns.length + ms.length + silenceDurationBlocks + 1 ≤ m) :
    (record_until_silence ((ns ++ ms ++ ks).map ReadResult.ok) mc).length
      = ns.length + ms.length + silenceDurationBlocks + 1 := by
  unfold record_until_silence
  rw [List.map_append, List.map_append, List.append_assoc]
  rw [recordAux_silent_phase ns _ [] 0 0 mc hns
    (fun m hm => by have := hcap m hm; omega)]
  rw [recordAux_speech_phase ms _ ([] ++ ns) (0 + ns.length) (0 + ns.length) false mc hms
    (fun m hm => by have := hcap m hm; omega)]
  have hmsE : ms.isEmpty = false := by
    cases ms with
    | nil => exact absurd rfl hmne
    | cons a l => rfl
  have hcond : ¬(ms.isEmpty = true) := by
    rw [hmsE]
    exact Bool.false_ne_true
  rw [if_neg hcond, hmsE, Bool.not_false, Bool.or_true]
  have htrail := recordAux_trailing_silence ks [] ([] ++ ns ++ ms) 0
    (0 + ns.length + ms.length) mc hks (Nat.zero_le _) (by omega)
    (fun m hm => by have := hcap m hm; omega)
  rw [List.append_nil] at htrail
  rw [htrail]
  simp only [List.nil_append, List.length_append, List.length_take]
  omega

/-- Witness for C1 at a concrete input: one leading silent block, one speech
block, 32 trailing silent blocks, no duration cap. -/
theorem claim_C1_witness :
    (record_until_silence ((([[(0 : Int)]] : List Block) ++ [[(1000 : Int)]] ++
      List.replicate 32 [(0 : Int)]).map ReadResult.ok) none).length
      = 1 + 1 + silenceDurationBlocks + 1 := by
  have h := claim_C1 [[(0 : Int)]] [[(1000 : Int)]] (List.replicate 32 [(0 : Int)]) none
    (by intro b hb; rw [List.mem_singleton.mp hb]; rfl)
    (by intro b hb; rw [List.mem_singleton.mp hb]; rfl)
    (by simp)
    (by intro b hb; rw [List.eq_of_mem_replicate hb]; rfl)
    (by rw [List.length_replicate]; decide)
    (by intro m hm; cases hm)
  simpa using h

/-- Claim C4: the silence classification computes the peak absolute sample
value of the block and is Silent iff that peak is strictly below
SILENCE_THRESHOLD; a block whose peak equals the threshold exactly is Speech.
(Real blocks are nonempty: the device delivers CHUNK samples per read.) -/
theorem claim_C4 (b : Block) (_hb : b ≠ []) :
    (classify b = .Silent ↔ amplitude b < SILENCE_THRESHOLD) ∧
    (amplitude b = SILENCE_THRESHOLD → classify b = .Speech) := by
  refine ⟨?_, ?_⟩
  · unfold classify isSilent
    by_cases h : amplitude b < SILENCE_THRESHOLD
    · simp [h]
    · simp [h]
  · intro heq
    unfold classify isSilent
    rw [heq]
    simp

/-- Witness for C4 at the boundary block [800]: the peak equals the threshold
exactly and the verdict is Speech. -/
theorem claim_C4_witness :
    amplitude [(800 : Int)] = SILENCE_THRESHOLD ∧
    classify [(800 : Int)] = .Speech :=
  ⟨rfl, (claim_C4 [(800 : Int)] (by simp)).2 rfl⟩

/-- Counterexample to C5 as stated: with the input [1 silent][1 speech]
[32 silent] the returned session STARTS with the leading silent block,
because the loop appends every block before classifying it. -/
theorem claim_C5_counterexample :
    (record_until_silence ((([[(0 : Int)]] : List Block) ++ [[(1000 : Int)]] ++
      List.replicate 32 [(0 : Int)]).map ReadResult.ok) none).head?
        = some [(0 : Int)] ∧
    isSilent [(0 : Int)] = true := ⟨rfl, rfl⟩

/-- Claim C5 amended: silent blocks before the first speech block ARE
retained: the loop appends every read block unconditionally, so for any input
beginning with silent blocks (cap, if any, not yet reached there) the returned
session starts with exactly those blocks. -/
theorem claim_C5 (ns : List Block) (rest : List ReadResult) (mc : Option Nat)
    (hns : ∀ b ∈ ns, isSilent b = true)
    (hcap : ∀ m, mc = some m → ns.length < m) :
    ns <+: record_until_silence (ns.map ReadResult.ok ++ rest) mc := by
  unfold record_until_silence
  rw [recordAux_silent_phase ns rest [] 0 0 mc hns
    (fun m hm => by have := hcap m hm; omega)]
  have h := recordAux_frames_grow rest ([] ++ ns) (0 + ns.length) false (0 + ns.length) mc
  simpa using h

/-- Witness for the amended C5 at one concrete leading silent block. -/
theorem claim_C5_witness :
    ([[(0 : Int)]] : List Block) <+:
      record_until_silence (([[(0 : Int)]] : List Block).map ReadResult.ok ++
        [ReadResult.err]) none :=
  claim_C5 [[(0 : Int)]] [ReadResult.err] none
    (fun b hb => by rw [List.mem_singleton.mp hb]; rfl)
    (fun m hm => by cases hm)

/-- Claim C7: a device read error aborts the capture loop early and the blocks
accumulated so far are returned as a normal partial session; the embedding is
a total function, so no exception escapes the component.  Stated for an
arbitrary loop state and end-to-end for a silent prefix before the error. -/
theorem claim_C7 :
    (∀ (rest : List ReadResult) (frames : List Block) (sc : Nat) (hs : Bool)
        (t : Nat) (mc : Option Nat),
      recordUntilSilenceAux (ReadResult.err :: rest) frames sc hs t mc = frames) ∧
    (∀ (ns : List Block) (rest : List ReadResult) (mc : Option Nat),
      (∀ b ∈ ns, isSilent b = true) → (∀ m, mc = some m → ns.length < m) →
      record_until_silence (ns.map ReadResult.ok ++ ReadResult.err :: rest) mc = ns) := by
  refine ⟨fun _ _ _ _ _ _ => rfl, ?_⟩
  intro ns rest mc hns hcap
  unfold record_until_silence
  rw [recordAux_silent_phase ns (ReadResult.err :: rest) [] 0 0 mc hns
    (fun m hm => by have := hcap m hm; omega)]
  rfl

/-- Witness for C7: one silent block followed by a read error returns exactly
that one block. -/
theorem claim_C7_witness :
    record_until_silence (([[(0 : Int)]] : List Block).map ReadResult.ok ++
      ReadResult.err :: []) none = [[(0 : Int)]] :=
  claim_C7.2 [[(0 : Int)]] [] none
    (fun b hb => by rw [List.mem_singleton.mp hb]; rfl)
    (fun m hm => by cases hm)

/-- Claim C3: the InteractiveRecorder transition table: Enter/Return maps
Ready→Recording, Recording→Paused, Paused→Recording; q maps every state to
Stopped; any other key is a no-op; the key sequence [Enter, Enter, Enter, q]
passes through Ready, Recording, Paused, Recording, Stopped; and the single
key q pressed from Ready stops immediately with an empty session (zero
retained blocks, whatever happens afterwards). -/
theorem claim_C3 :
    keyTransition .READY '\n' = .RECORDING ∧
    keyTransition .RECORDING '\n' = .PAUSED ∧
    keyTransition .PAUSED '\n' = .RECORDING ∧
    keyTransition .READY '\r' = .RECORDING ∧
    keyTransition .RECORDING '\r' = .PAUSED ∧
    keyTransition .PAUSED '\r' = .RECORDING ∧
    (∀ s, keyTransition s 'q' = .STOPPED) ∧
    (∀ s c, c ≠ '\n' → c ≠ '\r' → c ≠ 'q' → keyTransition s c = s) ∧
    List.scanl keyTransition RecState.READY ['\n', '\n', '\n', 'q'] =
      [.READY, .RECORDING, .PAUSED, .RECORDING, .STOPPED] ∧
    (∀ events, (runTrace (Event.key 'q' :: events)).frames = [] ∧
      (runTrace [Event.key 'q']).st = .STOPPED) := by
  refine ⟨by decide, by decide, by decide, by decide, by decide, by decide,
    ?_, ?_, by decide, ?_⟩
  · intro s
    cases s <;> decide
  · intro s c h1 h2 h3
    have hor : ¬(c = '\n' ∨ c = '\r') := by
      intro h
      rcases h with h | h
      · exact h1 h
      · exact h2 h
    unfold keyTransition
    rw [if_neg hor, if_neg h3]
  · intro events
    refine ⟨?_, rfl⟩
    have h1 : (stepEvent initIState (Event.key 'q')).st = .STOPPED := rfl
    have h2 := stopped_absorbs events (stepEvent initIState (Event.key 'q')) h1
    show (List.foldl stepEvent initIState (Event.key 'q' :: events)).frames = []
    rw [List.foldl_cons]
    exact h2.2.trans rfl

/-- Witness for C3: an unrelated key is a no-op, and after q nothing is ever
recorded even if audio arrives later. -/
theorem claim_C3_witness :
    keyTransition .READY 'x' = .READY ∧
    (runTrace [Event.key 'q', Event.audio [(5 : Int)]]).frames = [] := by
  obtain ⟨-, -, -, -, -, -, -, t8, -, t10⟩ := claim_C3
  exact ⟨t8 .READY 'x' (by decide) (by decide) (by decide),
    (t10 [Event.audio [(5 : Int)]]).1⟩

/-- Claim C10: Stopped is absorbing: no key changes it, a step from a Stopped
state keeps Stopped and retains no block, each loop exits upon observing
Stopped, and any further event trace leaves state and frames unchanged — a
stopped recording can never resume. -/
theorem claim_C10 :
    (∀ c, keyTransition .STOPPED c = .STOPPED) ∧
    (∀ (s : IState) (e : Event), s.st = .STOPPED →
      (stepEvent s e).st = .STOPPED ∧ (stepEvent s e).frames = s.frames) ∧
    (∀ (s : IState) (b : Block), s.st = .STOPPED → s.audioDone = false →
      (stepEvent s (.audio b)).audioDone = true) ∧
    (∀ (s : IState) (c : Char), s.st = .STOPPED → s.keyDone = false →
      (stepEvent s (.key c)).keyDone = true) ∧
    (∀ (s : IState) (events : List Event), s.st = .STOPPED →
      (events.foldl stepEvent s).st = .STOPPED ∧
        (events.foldl stepEvent s).frames = s.frames) := by
  refine ⟨keyTransition_stopped, stepEvent_stopped, ?_, ?_,
    fun s events h => stopped_absorbs events s h⟩
  · intro s b h ha
    rw [stepEvent_audio_eq, if_neg (by rw [ha]; exact Bool.false_ne_true), h]
  · intro s c h hk
    rw [stepEvent_key_eq, if_neg (by rw [hk]; exact Bool.false_ne_true), h,
      keyTransition_stopped]
    rfl

/-- Witness for C10 from a concrete stopped state with one retained frame. -/
theorem claim_C10_witness :
    ([Event.audio [(1 : Int)], Event.key '\n'].foldl stepEvent
      ⟨.STOPPED, [[(7 : Int)]], false, false⟩).st = .STOPPED ∧
    ([Event.audio [(1 : Int)], Event.key '\n'].foldl stepEvent
      ⟨.STOPPED, [[(7 : Int)]], false, false⟩).frames = [[(7 : Int)]] :=
  claim_C10.2.2.2.2 ⟨.STOPPED, [[(7 : Int)]], false, false⟩
    [Event.audio [(1 : Int)], Event.key '\n'] rfl

/-- Claim C2: chunking round-trip at the fixed limit MAX_CHARS = 4096:
re-inserting at each split point exactly the whitespace stripped there
reproduces the chunked text exactly (in the program the chunked text is the
stripped input), every chunk is at most MAX_CHARS long, and the re-inserted
runs are pure whitespace — every character of the input lands in exactly one
chunk or one stripped whitespace run, in the original order. -/
theorem claim_C2 (text : List Char) :
    interleaveJoin (chunkText text) (chunkWs text) = text ∧
    (∀ ch ∈ chunkText text, ch.length ≤ MAX_CHARS) ∧
    (∀ w ∈ chunkWs text, ∀ c ∈ w, isStripSpace c = true) :=
  ⟨chunk_join text, chunk_length_le text, chunkWs_white text⟩

/-- Witness for C2 at a concrete short text. -/
theorem claim_C2_witness :
    interleaveJoin (chunkText ['h', 'i']) (chunkWs ['h', 'i']) = ['h', 'i'] ∧
    (∀ ch ∈ chunkText ['h', 'i'], ch.length ≤ MAX_CHARS) :=
  ⟨(claim_C2 ['h', 'i']).1, (claim_C2 ['h', 'i']).2.1⟩

/-- Claim C6: in each iteration with more than MAX_CHARS characters left, the
emitted chunk is `text[:splitPoint + 1]` where the split point is the last
occurrence in the window `text[:MAX_CHARS]` of a boundary character, trying
priority levels '.', '!', '?', newline, space in order and using the first
level with a match; with no boundary in the window the split is forced at
exactly MAX_CHARS - 1, making the chunk exactly MAX_CHARS long. -/
theorem claim_C6 (text w : List Char) (hlong : MAX_CHARS < text.length)
    (hw : w = text.take MAX_CHARS) :
    (chunkText text).head? = some (text.take (splitPoint w + 1)) ∧
    ('.' ∈ w → isLastOcc w '.' (splitPoint w)) ∧
    ('.' ∉ w → '!' ∈ w → isLastOcc w '!' (splitPoint w)) ∧
    ('.' ∉ w → '!' ∉ w → '?' ∈ w → isLastOcc w '?' (splitPoint w)) ∧
    ('.' ∉ w → '!' ∉ w → '?' ∉ w → '\n' ∈ w → isLastOcc w '\n' (splitPoint w)) ∧
    ('.' ∉ w → '!' ∉ w → '?' ∉ w → '\n' ∉ w → ' ' ∈ w →
      isLastOcc w ' ' (splitPoint w)) ∧
    ('.' ∉ w → '!' ∉ w → '?' ∉ w → '\n' ∉ w → ' ' ∉ w →
      splitPoint w = MAX_CHARS - 1 ∧
      (chunkText text).head? = some (text.take MAX_CHARS) ∧
      (text.take MAX_CHARS).length = MAX_CHARS) := by
  subst hw
  have hhead : (chunkText text).head? =
      some (text.take (splitPoint (text.take MAX_CHARS) + 1)) := by
    rw [chunkText_step text hlong]
    rfl
  refine ⟨hhead, ?_, ?_, ?_, ?_, ?_, ?_⟩
  · intro hm
    obtain ⟨i, hi⟩ := rfindIdx_of_mem _ '.' hm
    have hs : splitPoint (text.take MAX_CHARS) = i := by
      unfold splitPoint
      rw [hi]
    rw [hs]
    exact rfindIdx_isLastOcc _ _ _ hi
  · intro hn1 hm
    have h1 : rfindIdx (text.take MAX_CHARS) '.' = none :=
      (rfindIdx_eq_none_iff _ _).mpr hn1
    obtain ⟨i, hi⟩ := rfindIdx_of_mem _ '!' hm
    have hs : splitPoint (text.take MAX_CHARS) = i := by
      unfold splitPoint
      rw [h1, hi]
    rw [hs]
    exact rfindIdx_isLastOcc _ _ _ hi
  · intro hn1 hn2 hm
    have h1 : rfindIdx (text.take MAX_CHARS) '.' = none :=
      (rfindIdx_eq_none_iff _ _).mpr hn1
    have h2 : rfindIdx (text.take MAX_CHARS) '!' = none :=
      (rfindIdx_eq_none_iff _ _).mpr hn2
    obtain ⟨i, hi⟩ := rfindIdx_of_mem _ '?' hm
    have hs : splitPoint (text.take MAX_CHARS) = i := by
      unfold splitPoint
      rw [h1, h2, hi]
    rw [hs]
    exact rfindIdx_isLastOcc _ _ _ hi
  · intro hn1 hn2 hn3 hm
    have h1 : rfindIdx (text.take MAX_CHARS) '.' = none :=
      (rfindIdx_eq_none_iff _ _).mpr hn1
    have h2 : rfindIdx (text.take MAX_CHARS) '!' = none :=
      (rfindIdx_eq_none_iff _ _).mpr hn2
    have h3 : rfindIdx (text.take MAX_CHARS) '?' = none :=
      (rfindIdx_eq_none_iff _ _).mpr hn3
    obtain ⟨i, hi⟩ := rfindIdx_of_mem _ '\n' hm
    have hs : splitPoint (text.take MAX_CHARS) = i := by
      unfold splitPoint
      rw [h1, h2, h3, hi]
    rw [hs]
    exact rfindIdx_isLastOcc _ _ _ hi
  · intro hn1 hn2 hn3 hn4 hm
    have h1 : rfindIdx (text.take MAX_CHARS) '.' = none :=
      (rfindIdx_eq_none_iff _ _).mpr hn1
    have h2 : rfindIdx (text.take MAX_CHARS) '!' = none :=
      (rfindIdx_eq_none_iff _ _).mpr hn2
    have h3 : rfindIdx (text.take MAX_CHARS) '?' = none :=
      (rfindIdx_eq_none_iff _ _).mpr hn3
    have h4 : rfindIdx (text.take MAX_CHARS) '\n' = none :=
      (rfindIdx_eq_none_iff _ _).mpr hn4
    obtain ⟨i, hi⟩ := rfindIdx_of_mem _ ' ' hm
    have hs : splitPoint (text.take MAX_CHARS) = i := by
      unfold splitPoint
      rw [h1, h2, h3, h4, hi]
    rw [hs]
    exact rfindIdx_isLastOcc _ _ _ hi
  · intro hn1 hn2 hn3 hn4 hn5
    have h1 : rfindIdx (text.take MAX_CHARS) '.' = none :=
      (rfindIdx_eq_none_iff _ _).mpr hn1
    have h2 : rfindIdx (text.take MAX_CHARS) '!' = none :=
      (rfindIdx_eq_none_iff _ _).mpr hn2
    have h3 : rfindIdx (text.take MAX_CHARS) '?' = none :=
      (rfindIdx_eq_none_iff _ _).mpr hn3
    have h4 : rfindIdx (text.take MAX_CHARS) '\n' = none :=
      (rfindIdx_eq_none_iff _ _).mpr hn4
    have h5 : rfindIdx (text.take MAX_CHARS) ' ' = none :=
      (rfindIdx_eq_none_iff _ _).mpr hn5
    have hs : splitPoint (text.take MAX_CHARS) = MAX_CHARS - 1 := by
      unfold splitPoint
      rw [h1, h2, h3, h4, h5]
    have hm1 : MAX_CHARS - 1 + 1 = MAX_CHARS := by
      norm_num [MAX_CHARS]
    refine ⟨hs, ?_, ?_⟩
    · rw [hhead, hs, hm1]
    · rw [List.length_take]
      omega

/-- Witness for C6 at the forced-split example: 5000 copies of 'x' (no
boundary characters) yield a first chunk of exactly 4096 characters. -/
theorem claim_C6_witness :
    (chunkText (List.replicate 5000 'x')).head? = some (List.replicate 4096 'x') ∧
    (List.replicate 4096 'x').length = MAX_CHARS := by
  have hlong : MAX_CHARS < (List.replicate 5000 'x').length := by
    rw [List.length_replicate]
    decide
  have hnb : ∀ c : Char, c ≠ 'x' → c ∉ (List.replicate 5000 'x').take MAX_CHARS := by
    intro c hc hmem
    have := List.eq_of_mem_replicate (List.take_subset _ _ hmem)
    exact hc this
  have h := (claim_C6 (List.replicate 5000 'x') _ hlong rfl).2.2.2.2.2.2
    (hnb '.' (by decide)) (hnb '!' (by decide)) (hnb '?' (by decide))
    (hnb '\n' (by decide)) (hnb ' ' (by decide))
  have htake : (List.replicate 5000 'x').take MAX_CHARS = List.replicate 4096 'x' := by
    rw [List.take_replicate]
    norm_num [MAX_CHARS]
  refine ⟨?_, ?_⟩
  · rw [h.2.1, htake]
  · rw [List.length_replicate]
    norm_num [MAX_CHARS]

/-- Claim C8: the chunking loop terminates on every finite input: whenever the
remainder is longer than MAX_CHARS the loop takes one more step and the
remainder shrinks strictly (the forced cut guarantees at least one character
of progress even with no boundary characters). -/
theorem claim_C8 (text : List Char) (hlong : MAX_CHARS < text.length) :
    chunkText text = nextChunk text :: chunkText (nextRest text) ∧
    (nextRest text).length < text.length :=
  ⟨chunkText_step text hlong, nextRest_length_lt text (by omega)⟩

/-- Witness for C8 at a concrete 4097-character input. -/
theorem claim_C8_witness :
    MAX_CHARS < (List.replicate 4097 'x').length ∧
    (nextRest (List.replicate 4097 'x')).length < (List.replicate 4097 'x').length :=
  ⟨by rw [List.length_replicate]; decide,
   (claim_C8 (List.replicate 4097 'x') (by rw [List.length_replicate]; decide)).2⟩

/-- Counterexample to C9 as stated: the chunker keeps the boundary character
at the end of the emitted chunk, so with a space boundary the chunk ends in
whitespace: for the input of 4090 copies of 'a', one space, and 11 copies of
'b', the first emitted chunk is the 4090 'a's followed by the space. -/
theorem claim_C9_counterexample :
    (List.replicate 4090 'a' ++ [' ']) ∈
      chunkText (List.replicate 4090 'a' ++ ' ' :: List.replicate 11 'b') ∧
    (List.replicate 4090 'a' ++ [' ']).getLast? = some ' ' ∧
    isStripSpace ' ' = true := by
  have hlen : (List.replicate 4090 'a' ++ ' ' :: List.replicate 11 'b').length = 4102 := by
    rw [List.length_append, List.length_replicate, List.length_cons,
      List.length_replicate]
  have hlong : MAX_CHARS < (List.replicate 4090 'a' ++ ' ' :: List.replicate 11 'b').length := by
    rw [hlen]
    norm_num [MAX_CHARS]
  have hw : (List.replicate 4090 'a' ++ ' ' :: List.replicate 11 'b').take MAX_CHARS
      = List.replicate 4090 'a' ++ ' ' :: List.replicate 5 'b' := by
    rw [List.take_append_eq_append_take, List.length_replicate, List.take_replicate]
    norm_num [MAX_CHARS]
  have hno : ∀ c : Char, c ≠ 'a' → c ≠ ' ' → c ≠ 'b' →
      rfindIdx (List.replicate 4090 'a' ++ ' ' :: List.replicate 5 'b') c = none := by
    intro c hca hcs hcb
    rw [rfindIdx_eq_none_iff]
    intro hmem
    rcases List.mem_append.mp hmem with hmem | hmem
    · exact hca (List.eq_of_mem_replicate hmem)
    · rcases List.mem_cons.mp hmem with hmem | hmem
      · exact hcs hmem
      · exact hcb (List.eq_of_mem_replicate hmem)
  have hspace : rfindIdx (List.replicate 4090 'a' ++ ' ' :: List.replicate 5 'b') ' '
      = some 4090 := by
    rw [rfindIdx_append]
    have hbs : rfindIdx (List.replicate 5 'b') ' ' = none := by
      rw [rfindIdx_eq_none_iff]
      intro hmem
      have := List.eq_of_mem_replicate hmem
      cases this
    have h2 : rfindIdx (' ' :: List.replicate 5 'b') ' ' = some 0 := by
      rw [rfindIdx_cons, hbs]
      rw [if_pos rfl]
    rw [h2, List.length_replicate]
  have hsp : splitPoint ((List.replicate 4090 'a' ++ ' ' :: List.replicate 11 'b').take
      MAX_CHARS) = 4090 := by
    rw [hw]
    unfold splitPoint
    rw [hno '.' (by decide) (by decide) (by decide),
      hno '!' (by decide) (by decide) (by decide),
      hno '?' (by decide) (by decide) (by decide),
      hno '\n' (by decide) (by decide) (by decide), hspace]
  have hchunk : nextChunk (List.replicate 4090 'a' ++ ' ' :: List.replicate 11 'b')
      = List.replicate 4090 'a' ++ [' '] := by
    unfold nextChunk
    rw [hsp, List.take_append_eq_append_take, List.length_replicate, List.take_replicate]
    norm_num
  refine ⟨?_, List.getLast?_concat _, rfl⟩
  rw [chunkText_step _ hlong, hchunk]
  exact List.mem_cons_self _ _

/-- Claim C9 amended: every emitted chunk is a contiguous (infix) substring of
the chunked text, nonempty and of length at most MAX_CHARS; leading whitespace
is trimmed at chunk boundaries (every chunk after the first starts with a
non-whitespace character), but the boundary character itself is kept at the
END of a chunk, so a chunk may end with boundary whitespace (space or newline
boundaries). -/
theorem claim_C9 (text : List Char) :
    (∀ ch ∈ chunkText text, ch <:+: text ∧ ch.length ≤ MAX_CHARS ∧ ch ≠ []) ∧
    (∀ ch ∈ (chunkText text).tail, ∃ c tl, ch = c :: tl ∧ isStripSpace c = false) := by
  constructor
  · intro ch hch
    exact ⟨chunk_isInfix text ch hch, chunk_length_le text ch hch,
      chunk_ne_nil text ch hch⟩
  · intro ch hch
    by_cases h0 : text.length = 0
    · rw [chunkText_nil text h0] at hch
      cases hch
    · by_cases h1 : text.length ≤ MAX_CHARS
      · rw [chunkText_small text h0 h1] at hch
        simp at hch
      · rw [chunkText_step text (by omega), List.tail_cons] at hch
        refine chunk_head_not_space (nextRest text) ?_ ch hch
        intro c hc
        unfold nextRest at hc
        have h2 := List.head?_dropWhile_not isStripSpace
          (text.drop (splitPoint (text.take MAX_CHARS) + 1))
        rw [hc] at h2
        simpa using h2

/-- Witness for the amended C9 at a concrete short text. -/
theorem claim_C9_witness :
    (['h', 'i'] : List Char) ∈ chunkText ['h', 'i'] ∧
    (['h', 'i'] : List Char) <:+: ['h', 'i'] ∧
    (['h', 'i'] : List Char).length ≤ MAX_CHARS := by
  have hmem : (['h', 'i'] : List Char) ∈ chunkText ['h', 'i'] := by
    rw [chunkText_small ['h', 'i'] (by simp) (by decide)]
    exact List.mem_singleton_self _
  have h := (claim_C9 ['h', 'i']).1 ['h', 'i'] hmem
  exact ⟨hmem, h.1, h.2.1⟩

end Letstalk
